import Mathlib

/-!
Verification of the TreemapVisualizer core (`src/treemap_viewer.py`).

The Python source is shallowly embedded: floats are modelled by exact
rationals (`ℚ`), Python's `float("inf")` by `none : Option ℚ` together
with the comparison `infLE` (which mirrors IEEE comparisons against
+infinity), strings by `List Char`, and the stateful scanner by explicit
state passing.  Definitions follow the source line by line; the line
numbers cited in doc comments refer to `src/treemap_viewer.py`.
-/

namespace Treemap

/-! ## Squarified treemap layout (lines 155-240) -/

/-- A layout rectangle `(x, y, w, h)`, mirroring `Rect` (line 157). -/
structure Rect where
  x : ℚ
  y : ℚ
  w : ℚ
  h : ℚ
deriving DecidableEq

/-- Area of a rectangle, `w * h`. -/
def Rect.area (r : Rect) : ℚ := r.w * r.h

/-- Comparison on `ℚ` extended with `+∞` (`none`).  This is exactly how
Python's `<=` behaves on floats when one side may be `float("inf")` and
no NaN is involved: `inf <= inf` is `True`, `a <= inf` is `True`,
`inf <= b` is `False` for finite `b`. -/
def infLE : Option ℚ → Option ℚ → Bool
  | _, none => true
  | none, some _ => false
  | some a, some b => decide (a ≤ b)

/-- `worst_aspect_ratio(row, short_side)` (lines 159-165).  Python
returns `float("inf")` for an empty row or a non-positive short side,
modelled by `none`.  (In every call site inside `squarify` the row
entries are strictly positive, so the divisions below never divide by
zero; on such inputs Python would raise `ZeroDivisionError` while `/` on
`ℚ` totalises to `0`.) -/
def worstAspect (row : List ℚ) (short : ℚ) : Option ℚ :=
  match row with
  | [] => none
  | v :: rest =>
    if short ≤ 0 then none
    else
      let s : ℚ := (v :: rest).sum
      let mx : ℚ := rest.foldl max v
      let mn : ℚ := rest.foldl min v
      some (max (short ^ 2 * mx / s ^ 2) (s ^ 2 / (short ^ 2 * mn)))

/-- Horizontal arm of `layout_row` (lines 174-180): fixed height `row_h`,
items laid left to right starting at `cx`. -/
def layoutRowH : List ℚ → ℚ → ℚ → ℚ → List Rect
  | [], _, _, _ => []
  | v :: rest, cx, y, row_h =>
    ⟨cx, y, v / row_h, row_h⟩ :: layoutRowH rest (cx + v / row_h) y row_h

/-- Vertical arm of `layout_row` (lines 182-189): fixed width `col_w`,
items laid top to bottom starting at `cy`. -/
def layoutRowV : List ℚ → ℚ → ℚ → ℚ → List Rect
  | [], _, _, _ => []
  | v :: rest, x, cy, col_w =>
    ⟨x, cy, col_w, v / col_w⟩ :: layoutRowV rest x (cy + v / col_w) col_w

/-- `layout_row(row, rect, horizontal)` (lines 167-190). -/
def layout_row (row : List ℚ) (r : Rect) (horizontal : Bool) : List Rect :=
  if row.sum ≤ 0 ∨ r.w ≤ 0 ∨ r.h ≤ 0 then []
  else if horizontal then layoutRowH row r.x r.y (row.sum / r.w)
  else layoutRowV row r.x r.y (row.sum / r.h)

/-- `leftover_rect(rect, row, horizontal)` (lines 192-202). -/
def leftover_rect (r : Rect) (row : List ℚ) (horizontal : Bool) : Rect :=
  if row.sum ≤ 0 ∨ r.w ≤ 0 ∨ r.h ≤ 0 then r
  else if horizontal then ⟨r.x, r.y + row.sum / r.w, r.w, r.h - row.sum / r.w⟩
  else ⟨r.x + row.sum / r.h, r.y, r.w - row.sum / r.h, r.h⟩

/-- The `while vals:` loop of `squarify` plus the final flush
(lines 219-240).  The source's `else` branch closes the current row
without popping `v`; on re-entry the row is empty, so the very next
iteration necessarily accepts `v` (`not row` short-circuits the
condition at line 227).  Those two iterations are fused here into the
single `else` branch, which makes the recursion structural on `vals`;
the computed function is identical.  `horizontal = (rw >= rh)`
(lines 230, 237). -/
def squarifyLoop : List ℚ → List ℚ → Rect → List Rect
  | [], row, r =>
    if row.isEmpty then [] else layout_row row r (decide (r.h ≤ r.w))
  | v :: rest, row, r =>
    let short := min r.w r.h
    if row.isEmpty || infLE (worstAspect (row ++ [v]) short) (worstAspect row short) then
      squarifyLoop rest (row ++ [v]) r
    else
      let horizontal := decide (r.h ≤ r.w)
      layout_row row r horizontal ++
        squarifyLoop rest [v] (leftover_rect r row horizontal)

/-- `squarify(values, rect)` (lines 204-240). -/
def squarify (values : List ℚ) (rect : Rect) : List Rect :=
  if rect.w ≤ 1 ∨ rect.h ≤ 1 then []
  else
    let vals := values.filter (fun v => 0 < v)
    if vals.isEmpty then []
    else
      let total := vals.sum
      let area := rect.w * rect.h
      let scale := if 0 < total then area / total else 0
      squarifyLoop (vals.map (fun v => v * scale)) [] rect

example : squarify [1] ⟨0, 0, 1/2, 2⟩ = [] := by with_unfolding_all rfl
example : squarify [2] ⟨0, 0, 2, 3⟩ = [⟨0, 0, 2, 3⟩] := by with_unfolding_all rfl

/-! ## Byte-size formatting (lines 35-42) -/

/-- The result of `human_size`: the numeric magnitude that gets printed,
the unit suffix, and whether the `:.1f` one-decimal format is used
(`n B` for the byte tier uses the plain integer format instead). -/
structure SizeText where
  value : ℚ
  unit : String
  oneDecimal : Bool
deriving DecidableEq

/-- The `for unit in [...]` loop of `human_size` (lines 38-42): divide by
1024, return on the first unit where the magnitude drops below 1024,
fall through to `"ZB"` after the list is exhausted. -/
def humanLoop (n : ℚ) : List String → SizeText
  | [] => ⟨n, "ZB", true⟩
  | u :: rest =>
    let n' := n / 1024
    if n' < 1024 then ⟨n', u, true⟩ else humanLoop n' rest

/-- `human_size(n)` (lines 35-42) for a non-negative byte count. -/
def human_size (n : ℕ) : SizeText :=
  if (n : ℚ) < 1024 then ⟨n, "B", false⟩
  else humanLoop n ["KB", "MB", "GB", "TB", "PB", "EB"]

example : human_size 500 = ⟨500, "B", false⟩ := by with_unfolding_all rfl
example : human_size 2048 = ⟨2, "KB", true⟩ := by with_unfolding_all rfl

/-! ## Exclusion matching (`TreemapApp._should_exclude`, lines 369-400)

Strings are modelled as `List Char`.  `os.path.abspath` (an external
stdlib path normaliser) is modelled as the identity: candidate paths are
taken as already absolute; the `.replace("\\", "/").lower()` steps that
the source applies itself are modelled faithfully.  `fnmatch.fnmatch`
(external stdlib globbing, also already case-normalised here) is passed
in as an abstract function `fn`.  -/

/-- Python `str.strip()` whitespace set (ASCII part). -/
def isWs (c : Char) : Bool :=
  c = ' ' || c = '\t' || c = '\n' || c = '\r' || c = '\x0b' || c = '\x0c'

/-- Python `s.strip()`. -/
def pyStrip (s : List Char) : List Char :=
  ((s.dropWhile isWs).reverse.dropWhile isWs).reverse

/-- Python `s.lower()` (ASCII letters). -/
def pyLower (s : List Char) : List Char := s.map Char.toLower

/-- Python `s.replace("\\", "/")`. -/
def slashify (s : List Char) : List Char :=
  s.map (fun c => if c = '\\' then '/' else c)

/-- POSIX `os.path.isabs`: the string starts with `/`. -/
def pyIsAbs : List Char → Bool
  | '/' :: _ => true
  | _ => false

/-- Python `s.rstrip("/")`. -/
def rstripSlash (s : List Char) : List Char :=
  (s.reverse.dropWhile (fun c => c = '/')).reverse

/-- Python `s.startswith(p)`. -/
def pyStartswith : List Char → List Char → Bool
  | _, [] => true
  | [], _ :: _ => false
  | c :: cs, p :: ps => c = p && pyStartswith cs ps

/-- The glob metacharacters tested at line 397: `"*?["`. -/
def globChars : List Char := ['*', '?', '[']

/-- One iteration of the `for pat in self.exclude_patterns` loop
(lines 378-398), for an already-normalised candidate `path_n`/`name_n`.
`fn` stands for the external `fnmatch.fnmatch`. -/
def ruleMatches (fn : List Char → List Char → Bool)
    (path_n name_n pat : List Char) : Bool :=
  let pat_s := pyStrip pat
  if pat_s.isEmpty then false
  else
    let is_abs := pyIsAbs pat_s
    let pat_n := pyLower (if is_abs then slashify pat_s else pat_s)
    if is_abs then
      -- absolute path rule (lines 386-389); the `continue` at line 390
      -- means no other branch is consulted for an absolute rule
      let base := rstripSlash pat_n
      path_n = base || pyStartswith path_n (base ++ ['/'])
    else
      -- glob on basename or full path (line 393)
      (fn name_n pat_n || fn path_n pat_n) ||
      -- plain token without wildcards: basename match (line 397)
      (!(pat_n.any (fun c => globChars.contains c)) && name_n = pat_n)

/-- The rule loop with its early `return True` (lines 378-400). -/
def excludeLoop (fn : List Char → List Char → Bool)
    (path_n name_n : List Char) : List (List Char) → Bool
  | [] => false
  | pat :: rest =>
    if ruleMatches fn path_n name_n pat then true
    else excludeLoop fn path_n name_n rest

/-- `TreemapApp._should_exclude(path, is_dir, name)` (lines 369-400)
against the captured pattern list.  `is_dir` is accepted and ignored
exactly as in the source. -/
def should_exclude (fn : List Char → List Char → Bool)
    (patterns : List (List Char)) (path : List Char) (is_dir : Bool)
    (name : List Char) : Bool :=
  let path_n := pyLower (slashify path)
  let name_n := pyLower name
  excludeLoop fn path_n name_n patterns

/-- The normalised form of an absolute rule that the matcher compares
against: strip surrounding whitespace, forward slashes, lower case, and
drop trailing `/` (lines 379-387). -/
def normAbsRule (pat : List Char) : List Char :=
  rstripSlash (pyLower (slashify (pyStrip pat)))

example :
    should_exclude (fun _ _ => false) ["/a/b".data] "/a/b/c".data true "c".data
      = true := by with_unfolding_all rfl
example :
    should_exclude (fun _ _ => false) ["/foo".data] "/foobar".data true "foobar".data
      = false := by with_unfolding_all rfl

/-! ## Directory scanning (`scan_directory`, lines 88-153)

The filesystem is modelled as a tree of `FS` values recording, for each
entry, the answers the OS would give to the calls the scanner makes:
`os.path.isdir`, whether `os.lstat` succeeds, `os.path.islink`,
`st.st_size` (a non-negative byte count for files), and whether
`os.scandir` succeeds (`EnumRes.ok`), raises `PermissionError`
(`EnumRes.permErr`) or raises some other `OSError` (`EnumRes.otherErr`).
Cooperative cancellation (`stop_flag.is_set()`, a mutable
`threading.Event` read) is modelled by a function `flag : ℕ → Bool`
giving the value read by the k-th check performed during the walk; the
scanner threads the check counter explicitly.  The `progress_cb`
callback has no effect on the result and is not modelled.  The
per-entry `except PermissionError` / `except Exception` handlers around
the recursive call (lines 130-135) fire only when a callback raises,
which cannot happen for the total Lean functions used here, so they are
not modelled either; the `except RuntimeError: raise` at line 132-133
(cancellation propagation) is modelled by propagating `.error`.  -/

/-- Result of `os.scandir` on a directory. -/
inductive EnumRes where
  | ok
  | permErr
  | otherErr
deriving DecidableEq

/-- One filesystem entry as observed through the OS calls the scanner
makes.  `size` and `enum` are only consulted for files resp.
directories. -/
inductive FS where
  | mk (fsname : List Char) (isDir statOk isLink : Bool) (size : ℕ)
      (enum : EnumRes) (children : List FS)

/-- The scandir entry name of an `FS` entry. -/
def FS.fsname : FS → List Char
  | .mk n _ _ _ _ _ _ => n

/-- What `os.path.isdir` answers. -/
def FS.isDir : FS → Bool
  | .mk _ d _ _ _ _ _ => d

/-- Whether `os.lstat` succeeds. -/
def FS.statOk : FS → Bool
  | .mk _ _ s _ _ _ _ => s

/-- What `os.path.islink` answers. -/
def FS.isLink : FS → Bool
  | .mk _ _ _ l _ _ _ => l

/-- `st.st_size`. -/
def FS.size : FS → ℕ
  | .mk _ _ _ _ sz _ _ => sz

/-- Result of `os.scandir`. -/
def FS.enum : FS → EnumRes
  | .mk _ _ _ _ _ e _ => e

/-- The directory's entries, in enumeration order. -/
def FS.children : FS → List FS
  | .mk _ _ _ _ _ _ cs => cs

/-- The `Node` dataclass (lines 75-84).  `size` is a Python `int`,
modelled by `ℤ` (the source guards against negative child sizes with
`max(child.size, 0)` at line 129). -/
inductive Node where
  | mk (path name : List Char) (size : ℤ) (is_dir : Bool)
      (children : List Node)

/-- Node path. -/
def Node.path : Node → List Char
  | .mk p _ _ _ _ => p

/-- Node display name (possibly carrying an error-tag suffix). -/
def Node.name : Node → List Char
  | .mk _ n _ _ _ => n

/-- Node size in bytes. -/
def Node.size : Node → ℤ
  | .mk _ _ s _ _ => s

/-- Whether the node is a directory. -/
def Node.is_dir : Node → Bool
  | .mk _ _ _ d _ => d

/-- Retained children in discovery order. -/
def Node.children : Node → List Node
  | .mk _ _ _ _ cs => cs

/-- `os.path.basename`: everything after the final `/`. -/
def pyBasename (p : List Char) : List Char :=
  (p.reverse.takeWhile (fun c => c ≠ '/')).reverse

/-- `name = os.path.basename(path) or path` (line 101). -/
def nameOf (p : List Char) : List Char :=
  let b := pyBasename p
  if b.isEmpty then p else b

/-- The tag appended when `os.lstat` fails (line 111). -/
def statErrorTag : List Char := " [stat error]".data

/-- The tag appended for symlinks (line 115). -/
def symlinkTag : List Char := " [symlink]".data

/-- The tag appended when enumeration hits `PermissionError` (line 139). -/
def deniedTag : List Char := " [denied]".data

/-- The tag appended when enumeration hits another error (line 141). -/
def errorTag : List Char := " [error]".data

/-- The `RuntimeError("Scan stopped")` raised on cancellation
(lines 99, 124) — the only exception that escapes `_scan`. -/
inductive ScanErr where
  | cancelled
deriving DecidableEq

/-- The mutable cancellation flag: the Boolean read by the k-th
`stop_flag.is_set()` check performed during the walk. -/
abbrev Flag := ℕ → Bool

/-- The optional exclusion predicate `(path, is_dir, name) -> bool`. -/
abbrev Excl := Option (List Char → Bool → List Char → Bool)

/-- `if not is_root and exclude and exclude(path, is_dir, name)`
(line 105). -/
def excludeTest (excl : Excl) (path : List Char) (is_dir : Bool)
    (name : List Char) : Bool :=
  match excl with
  | none => false
  | some f => f path is_dir name

mutual

/-- `_scan(path, is_root)` (lines 97-149) on the filesystem entry `fs`
sitting at `path`.  Returns `.error .cancelled` when a cancellation
check reads true, `.ok (none, k')` when the entry is excluded, and
`.ok (some node, k')` otherwise; `k` / `k'` is the cancellation-check
counter before / after the call. -/
def scanAux (flag : Flag) (excl : Excl) (path : List Char)
    (isRoot : Bool) (fs : FS) (k : ℕ) : Except ScanErr (Option Node × ℕ) :=
  if flag k then .error .cancelled
  else
    let k := k + 1
    let name := nameOf path
    match fs with
    | .mk _ isDir statOk isLink size enum children =>
      if !isRoot && excludeTest excl path isDir name then .ok (none, k)
      else if !statOk then
        .ok (some (.mk path (name ++ statErrorTag) 0 false []), k)
      else if isLink then
        .ok (some (.mk path (name ++ symlinkTag) 0 false []), k)
      else if isDir then
        match enum with
        | .permErr => .ok (some (.mk path (name ++ deniedTag) 0 true []), k)
        | .otherErr => .ok (some (.mk path (name ++ errorTag) 0 true []), k)
        | .ok =>
          match scanKids flag excl path children k with
          | .error e => .error e
          | .ok (kids, total, k') => .ok (some (.mk path name total true kids), k')
      else .ok (some (.mk path name (size : ℤ) false []), k)

/-- The `for entry in it` loop (lines 122-137): check the flag before
each entry, recurse on the entry, retain non-`None` children in
discovery order and accumulate `total += max(child.size, 0)`. -/
def scanKids (flag : Flag) (excl : Excl) (path : List Char)
    (cs : List FS) (k : ℕ) : Except ScanErr (List Node × ℤ × ℕ) :=
  match cs with
  | [] => .ok ([], 0, k)
  | c :: rest =>
    if flag k then .error .cancelled
    else
      match scanAux flag excl (path ++ '/' :: c.fsname) false c (k + 1) with
      | .error e => .error e
      | .ok (child?, k') =>
        match scanKids flag excl path rest k' with
        | .error e => .error e
        | .ok (kids, total, k'') =>
          match child? with
          | none => .ok (kids, total, k'')
          | some child => .ok (child :: kids, max child.size 0 + total, k'')

end

/-- `scan_directory(root_path, stop_flag, progress_cb, exclude)`
(lines 88-153): run `_scan` at the root with `is_root=True`.  The root
is never excluded (`assert root is not None`, line 152), so the last
branch below is unreachable; this is proved in `scanAux_root_ne_none`. -/
def scan_directory (flag : Flag) (excl : Excl) (root_path : List Char)
    (fs : FS) : Except ScanErr Node :=
  match scanAux flag excl root_path true fs 0 with
  | .error e => .error e
  | .ok (some n, _) => .ok n
  | .ok (none, _) => .ok (.mk root_path [] 0 false [])

/-- The terminal outcome of one scan session as `_scan_worker` reports
it (lines 510-533): `RuntimeError` → "Scan stopped" (`cancelledScan`),
any other exception → the "Scan failed" message box (`failed`), a
returned tree → `apply_tree` / "Done" (`completed`). -/
inductive Outcome where
  | completed (t : Node)
  | cancelledScan
  | failed

/-- Maps the result of the `scan_directory` call inside `_scan_worker`
to the session's terminal outcome.  In this embedding no exception
other than the cancellation `RuntimeError` can escape `scan_directory`,
so `failed` is never produced. -/
def scanOutcome (res : Except ScanErr Node) : Outcome :=
  match res with
  | .error .cancelled => .cancelledScan
  | .ok t => .completed t

mutual

/-- The directory-size invariant: every directory node's size is the sum
of its children's sizes. -/
def Node.wellSized : Node → Bool
  | .mk _ _ size is_dir children =>
    (!is_dir || size == (children.map Node.size).sum) &&
      Node.allWellSized children

/-- `Node.wellSized` on every node of a list. -/
def Node.allWellSized : List Node → Bool
  | [] => true
  | n :: rest => Node.wellSized n && Node.allWellSized rest

end

/-! ## Theorems -/

/-- The unit label of tier `k`, where tier 0 is the plain-byte tier and
tier `k ≥ 1` shows `n / 1024^k`. -/
def unitOf (k : ℕ) : String :=
  ["B", "KB", "MB", "GB", "TB", "PB", "EB"].getD k "ZB"

lemma humanLoop_tier (q : ℚ) :
    ∀ (us : List String) (i : ℕ), i < us.length →
      (∀ j, j < i → ¬ q / 1024 ^ (j + 1) < 1024) →
      q / 1024 ^ (i + 1) < 1024 →
      humanLoop q us = ⟨q / 1024 ^ (i + 1), us.getD i "ZB", true⟩ := by
  intro us
  induction us generalizing q with
  | nil => intro i hi; simp at hi
  | cons u rest ih =>
    intro i hi hge hlt
    cases i with
    | zero =>
      have h1 : q / 1024 < 1024 := by simpa using hlt
      simp [humanLoop, h1]
    | succ i' =>
      have h0 : ¬ q / 1024 < 1024 := by simpa using hge 0 (Nat.succ_pos _)
      have key : ∀ m : ℕ, q / 1024 / 1024 ^ (m + 1) = q / 1024 ^ (m + 2) := by
        intro m
        rw [div_div, ← pow_succ']
      have step := ih (q / 1024) i' (by simpa using hi)
        (fun j hj => by rw [key j]; exact hge (j + 1) (by omega))
        (by rw [key i']; exact hlt)
      simp only [humanLoop, h0, if_false]
      rw [step, key i']
      simp

lemma humanLoop_over (q : ℚ) :
    ∀ us : List String,
      (∀ j, j < us.length → ¬ q / 1024 ^ (j + 1) < 1024) →
      humanLoop q us = ⟨q / 1024 ^ us.length, "ZB", true⟩ := by
  intro us
  induction us generalizing q with
  | nil => intro _; simp [humanLoop]
  | cons u rest ih =>
    intro hge
    have h0 : ¬ q / 1024 < 1024 := by simpa using hge 0 (Nat.succ_pos _)
    have key : ∀ m : ℕ, q / 1024 / 1024 ^ m = q / 1024 ^ (m + 1) := by
      intro m
      rw [div_div, ← pow_succ']
    have step := ih (q / 1024)
      (fun j hj => by rw [key (j + 1)]; exact hge (j + 1) (by simpa using hj))
    simp only [humanLoop, h0, if_false]
    rw [step, key rest.length]
    simp

lemma natCast_div_lt_iff (n : ℕ) (e : ℕ) :
    ((n : ℚ) / 1024 ^ (e + 1) < 1024) ↔ n < 1024 ^ (e + 2) := by
  rw [div_lt_iff (by positivity)]
  rw [show (1024 : ℚ) * 1024 ^ (e + 1) = 1024 ^ (e + 2) by ring]
  exact_mod_cast Nat.cast_lt (α := ℚ)

/-- C9: for a non-negative byte count `n`, `human_size` uses the plain
byte form exactly when `n < 1024`; otherwise it divides by 1024
repeatedly until the magnitude is below 1024 or the largest unit is
reached, formatting with one decimal place in every tier except the
byte tier, the tier being determined by the powers `1024^k`
bracketing `n`. -/
theorem human_size_tiers :
    (∀ n : ℕ, n < 1024 → human_size n = ⟨n, "B", false⟩) ∧
    (∀ n k : ℕ, 1 ≤ k → k ≤ 6 → 1024 ^ k ≤ n → n < 1024 ^ (k + 1) →
      human_size n = ⟨(n : ℚ) / 1024 ^ k, unitOf k, true⟩) ∧
    (∀ n : ℕ, 1024 ^ 7 ≤ n →
      human_size n = ⟨(n : ℚ) / 1024 ^ 6, "ZB", true⟩) := by
  refine ⟨?_, ?_, ?_⟩
  · intro n h
    simp [human_size, show (n : ℚ) < 1024 from by exact_mod_cast h]
  · intro n k hk1 hk6 hlo hhi
    obtain ⟨i, rfl⟩ : ∃ i, k = i + 1 := ⟨k - 1, by omega⟩
    have hbig : ¬ (n : ℚ) < 1024 := by
      have : (1024 : ℕ) ≤ n := le_trans (Nat.le_self_pow (by omega) _) hlo
      push_neg
      exact_mod_cast this
    have hup : (n : ℚ) / 1024 ^ (i + 1) < 1024 :=
      (natCast_div_lt_iff n i).mpr hhi
    have hdown : ∀ j, j < i → ¬ (n : ℚ) / 1024 ^ (j + 1) < 1024 := by
      intro j hj
      rw [natCast_div_lt_iff]
      push_neg
      calc 1024 ^ (j + 2) ≤ 1024 ^ (i + 1) :=
            Nat.pow_le_pow_right (by omega) (by omega)
        _ ≤ n := hlo
    have hlen : i < (["KB", "MB", "GB", "TB", "PB", "EB"] : List String).length := by
      simp only [List.length]
      omega
    have := humanLoop_tier (n : ℚ) ["KB", "MB", "GB", "TB", "PB", "EB"] i hlen hdown hup
    simp only [human_size, hbig, if_false]
    rw [this]
    have hunit : (["KB", "MB", "GB", "TB", "PB", "EB"] : List String).getD i "ZB"
        = unitOf (i + 1) := by
      have hi6 : i < 6 := by omega
      interval_cases i <;> rfl
    rw [hunit]
  · intro n h7
    have hbig : ¬ (n : ℚ) < 1024 := by
      have : (1024 : ℕ) ≤ n := le_trans (Nat.le_self_pow (by omega) _) h7
      push_neg
      exact_mod_cast this
    have hdown : ∀ j, j < (["KB", "MB", "GB", "TB", "PB", "EB"] : List String).length →
        ¬ (n : ℚ) / 1024 ^ (j + 1) < 1024 := by
      intro j hj
      simp only [List.length] at hj
      rw [natCast_div_lt_iff]
      push_neg
      calc 1024 ^ (j + 2) ≤ 1024 ^ 7 := Nat.pow_le_pow_right (by omega) (by omega)
        _ ≤ n := h7
    have := humanLoop_over (n : ℚ) ["KB", "MB", "GB", "TB", "PB", "EB"] hdown
    simp only [human_size, hbig, if_false]
    rw [this]
    simp

/-- Witness for C9: `3 · 1024²` bytes sits in the MB tier and is shown
as `3.0 MB`. -/
theorem human_size_tiers_witness :
    human_size 3145728 = ⟨3, "MB", true⟩ := by
  have h := human_size_tiers.2.1 3145728 2 (by norm_num) (by norm_num)
    (by norm_num) (by norm_num)
  rw [h]
  norm_num [unitOf, SizeText.mk.injEq]

lemma pyStartswith_iff (p : List Char) :
    ∀ s : List Char, pyStartswith s p = true ↔ ∃ t, s = p ++ t := by
  induction p with
  | nil => intro s; simp [pyStartswith]
  | cons c ps ih =>
    intro s
    cases s with
    | nil =>
      simp only [pyStartswith]
      constructor
      · intro h; cases h
      · rintro ⟨t, ht⟩; cases ht
    | cons a as =>
      simp only [pyStartswith, Bool.and_eq_true, decide_eq_true_eq, ih as,
        List.cons_append, List.cons.injEq]
      constructor
      · rintro ⟨rfl, t, rfl⟩; exact ⟨t, rfl, rfl⟩
      · rintro ⟨t, rfl, rfl⟩; exact ⟨rfl, t, rfl⟩

/-- C7: for an absolute-path rule, the matcher fires exactly when the
normalised candidate path equals the normalised rule or is a strict
descendant of it (rule followed by a `/` separator and a suffix — a
segment-boundary match, not a raw string-prefix match); in particular
rule `/a/b` excludes `/a/b` and `/a/b/c` but not `/a/bc`, and `/foo`
does not match `/foobar`. -/
theorem absolute_rule_matching :
    (∀ (fn : List Char → List Char → Bool) (path_n name_n pat : List Char),
      pyIsAbs (pyStrip pat) = true →
      (ruleMatches fn path_n name_n pat = true ↔
        path_n = normAbsRule pat ∨ ∃ t, path_n = normAbsRule pat ++ '/' :: t)) ∧
    should_exclude (fun _ _ => false) ["/a/b".data] "/a/b".data true "b".data = true ∧
    should_exclude (fun _ _ => false) ["/a/b".data] "/a/b/c".data false "c".data = true ∧
    should_exclude (fun _ _ => false) ["/a/b".data] "/a/bc".data true "bc".data = false ∧
    should_exclude (fun _ _ => false) ["/foo".data] "/foobar".data true "foobar".data = false := by
  refine ⟨?_, by with_unfolding_all rfl, by with_unfolding_all rfl,
    by with_unfolding_all rfl, by with_unfolding_all rfl⟩
  intro fn path_n name_n pat habs
  obtain ⟨a, as, hps⟩ : ∃ a as, pyStrip pat = a :: as := by
    cases h : pyStrip pat with
    | nil => rw [h] at habs; cases habs
    | cons a as => exact ⟨a, as, rfl⟩
  have hne : (pyStrip pat).isEmpty = false := by rw [hps]; rfl
  simp only [ruleMatches, hne, Bool.false_eq_true, if_false, habs, if_true,
    Bool.or_eq_true, decide_eq_true_eq, pyStartswith_iff, normAbsRule]
  constructor
  · rintro (h | ⟨t, ht⟩)
    · exact Or.inl h
    · exact Or.inr ⟨t, by simpa using ht⟩
  · rintro (h | ⟨t, ht⟩)
    · exact Or.inl h
    · exact Or.inr ⟨t, by simpa using ht⟩

/-- Witness for C7: rule `/x/y` matches the strict descendant `/x/y/z`. -/
theorem absolute_rule_matching_witness :
    ruleMatches (fun _ _ => false) "/x/y/z".data "z".data "/x/y".data = true := by
  have h := absolute_rule_matching.1 (fun _ _ => false) "/x/y/z".data "z".data
    "/x/y".data (by with_unfolding_all rfl)
  exact h.mpr (Or.inr ⟨['z'], by with_unfolding_all rfl⟩)

lemma excludeLoop_any (fn : List Char → List Char → Bool)
    (path_n name_n : List Char) :
    ∀ pats : List (List Char),
      excludeLoop fn path_n name_n pats = pats.any (ruleMatches fn path_n name_n) := by
  intro pats
  induction pats with
  | nil => rfl
  | cons pat rest ih =>
    simp only [excludeLoop, List.any_cons]
    by_cases h : ruleMatches fn path_n name_n pat
    · simp [h]
    · simp [h, ih]

/-- C8: the matcher's boolean result is the disjunction of the
individual rule matches, hence invariant under any permutation of the
rule list. -/
theorem should_exclude_disjunction :
    ∀ (fn : List Char → List Char → Bool) (pats pats' : List (List Char))
      (path : List Char) (is_dir : Bool) (name : List Char),
      (should_exclude fn pats path is_dir name = true ↔
        ∃ pat ∈ pats,
          ruleMatches fn (pyLower (slashify path)) (pyLower name) pat = true) ∧
      (pats.Perm pats' →
        should_exclude fn pats path is_dir name
          = should_exclude fn pats' path is_dir name) := by
  intro fn pats pats' path is_dir name
  have hiff : ∀ qs : List (List Char),
      should_exclude fn qs path is_dir name = true ↔
        ∃ pat ∈ qs,
          ruleMatches fn (pyLower (slashify path)) (pyLower name) pat = true := by
    intro qs
    simp only [should_exclude, excludeLoop_any, List.any_eq_true]
  refine ⟨hiff pats, fun hperm => ?_⟩
  have hmem : (∃ pat ∈ pats,
        ruleMatches fn (pyLower (slashify path)) (pyLower name) pat = true) ↔
      (∃ pat ∈ pats',
        ruleMatches fn (pyLower (slashify path)) (pyLower name) pat = true) := by
    constructor
    · rintro ⟨pat, hm, h⟩; exact ⟨pat, hperm.mem_iff.mp hm, h⟩
    · rintro ⟨pat, hm, h⟩; exact ⟨pat, hperm.mem_iff.mpr hm, h⟩
  exact Bool.coe_iff_coe.mp ((hiff pats).trans (hmem.trans (hiff pats').symm))

/-- Witness for C8: swapping two rules leaves the result unchanged. -/
theorem should_exclude_disjunction_witness :
    should_exclude (fun _ _ => false) ["b".data, "zz".data] "/a/b".data false "b".data
      = should_exclude (fun _ _ => false) ["zz".data, "b".data] "/a/b".data false "b".data :=
  (should_exclude_disjunction (fun _ _ => false) ["b".data, "zz".data]
    ["zz".data, "b".data] "/a/b".data false "b".data).2
    (List.Perm.swap "zz".data "b".data [])

lemma worstAspect_infinite (row : List ℚ) (s : ℚ) (h : row = [] ∨ s ≤ 0) :
    worstAspect row s = none := by
  rcases h with rfl | hs
  · rfl
  · cases row with
    | nil => rfl
    | cons v rest => simp [worstAspect, hs]

lemma le_foldl_max (l : List ℚ) : ∀ a : ℚ, a ≤ l.foldl max a := by
  induction l with
  | nil => intro a; exact le_refl a
  | cons b t ih =>
    intro a
    exact le_trans (le_max_left a b) (ih (max a b))

lemma foldl_min_le (l : List ℚ) : ∀ a : ℚ, l.foldl min a ≤ a := by
  induction l with
  | nil => intro a; exact le_refl a
  | cons b t ih =>
    intro a
    exact le_trans (ih (min a b)) (min_le_left a b)

lemma foldl_min_pos (l : List ℚ) (hl : ∀ v ∈ l, 0 < v) :
    ∀ a : ℚ, 0 < a → 0 < l.foldl min a := by
  induction l with
  | nil => intro a ha; exact ha
  | cons b t ih =>
    intro a ha
    exact ih (fun v hv => hl v (List.mem_cons_of_mem _ hv)) _
      (lt_min ha (hl b (List.mem_cons_self _ _)))

/-- C10: on a non-empty row of strictly positive values with positive
short side, `worst_aspect_ratio` is a finite value that is at least 1;
on an empty row or non-positive short side it is infinite. -/
theorem worstAspect_ge_one :
    (∀ (row : List ℚ) (s : ℚ), (∀ v ∈ row, 0 < v) → row ≠ [] → 0 < s →
      ∃ q, worstAspect row s = some q ∧ 1 ≤ q) ∧
    (∀ (row : List ℚ) (s : ℚ), row = [] ∨ s ≤ 0 → worstAspect row s = none) := by
  constructor
  · intro row s hpos hne hs
    obtain ⟨v, rest, rfl⟩ : ∃ v rest, row = v :: rest := by
      cases row with
      | nil => exact absurd rfl hne
      | cons v rest => exact ⟨v, rest, rfl⟩
    have hv : 0 < v := hpos v (List.mem_cons_self _ _)
    have hrest : ∀ u ∈ rest, 0 < u :=
      fun u hu => hpos u (List.mem_cons_of_mem _ hu)
    set S : ℚ := (v :: rest).sum with hSdef
    set mx : ℚ := rest.foldl max v with hmxdef
    set mn : ℚ := rest.foldl min v with hmndef
    have hS : 0 < S := List.sum_pos _ hpos (List.cons_ne_nil _ _)
    have hmn : 0 < mn := foldl_min_pos rest hrest v hv
    have hmx : 0 < mx := lt_of_lt_of_le hv (le_foldl_max rest v)
    have hmnmx : mn ≤ mx := le_trans (foldl_min_le rest v) (le_foldl_max rest v)
    refine ⟨max (s ^ 2 * mx / S ^ 2) (S ^ 2 / (s ^ 2 * mn)), ?_, ?_⟩
    · simp only [worstAspect, if_neg (not_le.mpr hs)]
    · set a : ℚ := s ^ 2 * mx / S ^ 2 with hadef
      set b : ℚ := S ^ 2 / (s ^ 2 * mn) with hbdef
      have ha : 0 < a := by positivity
      have hb : 0 < b := by positivity
      have hab : a * b = mx / mn := by
        rw [hadef, hbdef]
        field_simp
        ring
      have hab1 : 1 ≤ a * b := by
        rw [hab]
        exact (one_le_div hmn).mpr hmnmx
      by_contra hlt
      push_neg at hlt
      rw [max_lt_iff] at hlt
      nlinarith [hlt.1, hlt.2]
  · exact worstAspect_infinite

/-- Witness for C10: the row `[2, 3]` with short side 1 has worst
aspect ratio `25/2 ≥ 1`. -/
theorem worstAspect_ge_one_witness :
    worstAspect [2, 3] 1 = some (25/2) ∧ (1 : ℚ) ≤ 25/2 := by
  obtain ⟨q, hq, h1⟩ :=
    worstAspect_ge_one.1 [2, 3] 1 (by norm_num) (by simp) (by norm_num)
  have hv : worstAspect [2, 3] 1 = some (25/2 : ℚ) := by with_unfolding_all rfl
  refine ⟨hv, ?_⟩
  have h2 := hv.symm.trans hq
  injection h2 with h3
  rw [h3]
  exact h1

/-- C4: in the `squarify` loop the next weight `v` is accepted into the
current row exactly when the row is empty or the worst aspect ratio
with `v` does not exceed the one without; otherwise the row is closed
out — laid as a horizontal strip iff the remaining rectangle's width is
at least its height — the consumed strip is carved off, and a new row
starts with `v`.  The worst aspect ratio of a row with short side `s`
is `max(s²·max(row)/sum(row)², sum(row)²/(s²·min(row)))`, and infinite
(`none`) for an empty row or `s ≤ 0`. -/
theorem squarify_row_acceptance :
    (∀ (v : ℚ) (rest row : List ℚ) (r : Rect),
      (row.isEmpty || infLE (worstAspect (row ++ [v]) (min r.w r.h))
          (worstAspect row (min r.w r.h))) = true →
      squarifyLoop (v :: rest) row r = squarifyLoop rest (row ++ [v]) r) ∧
    (∀ (v : ℚ) (rest row : List ℚ) (r : Rect),
      (row.isEmpty || infLE (worstAspect (row ++ [v]) (min r.w r.h))
          (worstAspect row (min r.w r.h))) = false →
      squarifyLoop (v :: rest) row r =
        layout_row row r (decide (r.h ≤ r.w)) ++
          squarifyLoop rest [v] (leftover_rect r row (decide (r.h ≤ r.w)))) ∧
    (∀ (v : ℚ) (rest : List ℚ) (s : ℚ), 0 < s →
      worstAspect (v :: rest) s =
        some (max (s ^ 2 * (rest.foldl max v) / ((v :: rest).sum) ^ 2)
          (((v :: rest).sum) ^ 2 / (s ^ 2 * (rest.foldl min v))))) ∧
    (∀ (row : List ℚ) (s : ℚ), row = [] ∨ s ≤ 0 → worstAspect row s = none) := by
  refine ⟨?_, ?_, ?_, worstAspect_infinite⟩
  · intro v rest row r h
    simp only [squarifyLoop, h, if_true]
  · intro v rest row r h
    simp only [squarifyLoop, h, Bool.false_eq_true, if_false]
  · intro v rest s hs
    simp only [worstAspect, if_neg (not_le.mpr hs)]

/-- Witness for C4: with an empty current row the first weight is always
accepted. -/
theorem squarify_row_acceptance_witness :
    squarifyLoop [4] [] ⟨0, 0, 2, 2⟩ = squarifyLoop [] ([] ++ [4]) ⟨0, 0, 2, 2⟩ :=
  squarify_row_acceptance.1 4 [] [] ⟨0, 0, 2, 2⟩ rfl

lemma sum_map_mul (l : List ℚ) (c : ℚ) :
    (l.map (fun v => v * c)).sum = l.sum * c := by
  induction l with
  | nil => simp
  | cons a t ih => simp [ih, add_mul]

lemma layoutRowH_map_area (y rh : ℚ) (hrh : rh ≠ 0) :
    ∀ (row : List ℚ) (cx : ℚ),
      (layoutRowH row cx y rh).map Rect.area = row := by
  intro row
  induction row with
  | nil => intro cx; rfl
  | cons v rest ih =>
    intro cx
    simp only [layoutRowH, List.map_cons, ih, Rect.area]
    rw [div_mul_cancel₀ _ hrh]

lemma layoutRowV_map_area (x cw : ℚ) (hcw : cw ≠ 0) :
    ∀ (row : List ℚ) (cy : ℚ),
      (layoutRowV row x cy cw).map Rect.area = row := by
  intro row
  induction row with
  | nil => intro cy; rfl
  | cons v rest ih =>
    intro cy
    simp only [layoutRowV, List.map_cons, ih, Rect.area]
    rw [mul_comm, div_mul_cancel₀ _ hcw]

lemma layout_row_map_area (row : List ℚ) (r : Rect) (horiz : Bool)
    (hs : 0 < row.sum) (hw : 0 < r.w) (hh : 0 < r.h) :
    (layout_row row r horiz).map Rect.area = row := by
  have hguard : ¬ (row.sum ≤ 0 ∨ r.w ≤ 0 ∨ r.h ≤ 0) := by
    push_neg
    exact ⟨hs, hw, hh⟩
  cases horiz with
  | true =>
    simp only [layout_row, if_neg hguard, if_true]
    exact layoutRowH_map_area r.y _ (div_ne_zero (ne_of_gt hs) (ne_of_gt hw)) row r.x
  | false =>
    simp only [layout_row, if_neg hguard, Bool.false_eq_true, if_false]
    exact layoutRowV_map_area r.x _ (div_ne_zero (ne_of_gt hs) (ne_of_gt hh)) row r.y

lemma leftover_dims (r : Rect) (row : List ℚ) (horiz : Bool)
    (hs : 0 < row.sum) (hw : 0 < r.w) (hh : 0 < r.h) (hlt : row.sum < r.area) :
    0 < (leftover_rect r row horiz).w ∧ 0 < (leftover_rect r row horiz).h ∧
      (leftover_rect r row horiz).area = r.area - row.sum := by
  have hguard : ¬ (row.sum ≤ 0 ∨ r.w ≤ 0 ∨ r.h ≤ 0) := by
    push_neg
    exact ⟨hs, hw, hh⟩
  have hw' : r.w ≠ 0 := ne_of_gt hw
  have hh' : r.h ≠ 0 := ne_of_gt hh
  rw [Rect.area] at hlt
  cases horiz with
  | true =>
    simp only [leftover_rect, if_neg hguard, if_true, Rect.area]
    refine ⟨hw, ?_, ?_⟩
    · rw [sub_pos, div_lt_iff₀ hw]
      linarith [hlt]
    · field_simp
      ring
  | false =>
    simp only [leftover_rect, if_neg hguard, Bool.false_eq_true, if_false, Rect.area]
    refine ⟨?_, hh, ?_⟩
    · rw [sub_pos, div_lt_iff₀ hh]
      linarith [hlt]
    · field_simp
      try ring

lemma squarifyLoop_map_area :
    ∀ (vals row : List ℚ) (r : Rect),
      (∀ v ∈ vals, 0 < v) → (∀ v ∈ row, 0 < v) →
      0 < r.w → 0 < r.h → row.sum + vals.sum = r.area →
      (squarifyLoop vals row r).map Rect.area = row ++ vals := by
  intro vals
  induction vals with
  | nil =>
    intro row r _ hrow hw hh hsum
    have harea : 0 < r.area := mul_pos hw hh
    have hrsum : row.sum = r.area := by simpa using hsum
    have hne : row.isEmpty = false := by
      cases row with
      | nil => rw [hrsum.symm] at harea; simp at harea
      | cons a t => rfl
    simp only [squarifyLoop, hne, Bool.false_eq_true, if_false]
    rw [layout_row_map_area row r _ (hrsum ▸ harea) hw hh]
    simp
  | cons v rest ih =>
    intro row r hvals hrow hw hh hsum
    have hv : 0 < v := hvals v (List.mem_cons_self _ _)
    have hrest : ∀ u ∈ rest, 0 < u :=
      fun u hu => hvals u (List.mem_cons_of_mem _ hu)
    by_cases hcond : (row.isEmpty ||
        infLE (worstAspect (row ++ [v]) (min r.w r.h))
          (worstAspect row (min r.w r.h))) = true
    · simp only [squarifyLoop, hcond, if_true]
      have hsum' : (row ++ [v]).sum + rest.sum = r.area := by
        simp only [List.sum_append, List.sum_cons, List.sum_nil, List.sum_cons] at hsum ⊢
        linarith
      have happ : ∀ u ∈ row ++ [v], 0 < u := by
        intro u hu
        rcases List.mem_append.mp hu with h | h
        · exact hrow u h
        · rw [List.mem_singleton.mp h]; exact hv
      rw [ih (row ++ [v]) r hrest happ hw hh hsum']
      simp
    · rw [Bool.not_eq_true] at hcond
      simp only [squarifyLoop, hcond, Bool.false_eq_true, if_false]
      have hrowne : row ≠ [] := by
        intro hnil
        rw [hnil] at hcond
        simp at hcond
      have hs : 0 < row.sum := List.sum_pos row hrow hrowne
      have hvals_pos : 0 < (v :: rest).sum :=
        List.sum_pos _ hvals (List.cons_ne_nil _ _)
      have hlt : row.sum < r.area := by
        rw [← hsum]
        linarith
      obtain ⟨hw', hh', harea'⟩ :=
        leftover_dims r row (decide (r.h ≤ r.w)) hs hw hh hlt
      have hsum' : ([v]).sum + rest.sum
          = (leftover_rect r row (decide (r.h ≤ r.w))).area := by
        rw [harea', ← hsum]
        simp only [List.sum_cons, List.sum_nil]
        ring
      have hvpos : ∀ u ∈ [v], 0 < u := by
        intro u hu
        rw [List.mem_singleton.mp hu]
        exact hv
      rw [List.map_append, layout_row_map_area row r _ hs hw hh,
        ih [v] _ hrest hvpos hw' hh' hsum']
      simp

/-- Containment of one rectangle in another (all four edges). -/
def insideOf (q r : Rect) : Prop :=
  r.x ≤ q.x ∧ r.y ≤ q.y ∧ q.x + q.w ≤ r.x + r.w ∧ q.y + q.h ≤ r.y + r.h

lemma insideOf_trans {a b c : Rect} (h1 : insideOf a b) (h2 : insideOf b c) :
    insideOf a c := by
  obtain ⟨h1x, h1y, h1w, h1h⟩ := h1
  obtain ⟨h2x, h2y, h2w, h2h⟩ := h2
  exact ⟨le_trans h2x h1x, le_trans h2y h1y, le_trans h1w h2w, le_trans h1h h2h⟩

lemma layoutRowH_bounds (y rh : ℚ) (hrh : 0 < rh) :
    ∀ (row : List ℚ) (cx : ℚ), (∀ v ∈ row, 0 < v) →
      ∀ q ∈ layoutRowH row cx y rh,
        q.y = y ∧ q.h = rh ∧ cx ≤ q.x ∧ q.x + q.w ≤ cx + row.sum / rh ∧ 0 < q.w := by
  intro row
  induction row with
  | nil => intro cx _ q hq; simp [layoutRowH] at hq
  | cons v rest ih =>
    intro cx hpos q hq
    have hv : 0 < v := hpos v (List.mem_cons_self _ _)
    have hrest : ∀ u ∈ rest, 0 < u :=
      fun u hu => hpos u (List.mem_cons_of_mem _ hu)
    have hrsum : 0 ≤ rest.sum := List.sum_nonneg (fun u hu => le_of_lt (hrest u hu))
    simp only [layoutRowH, List.mem_cons] at hq
    rcases hq with rfl | hq
    · refine ⟨rfl, rfl, le_refl _, ?_, div_pos hv hrh⟩
      simp only [List.sum_cons]
      have : v / rh ≤ (v + rest.sum) / rh :=
        (div_le_div_right hrh).mpr (by linarith)
      linarith
    · obtain ⟨hy, hh, hx, hxw, hw⟩ := ih (cx + v / rh) hrest q hq
      refine ⟨hy, hh, ?_, ?_, hw⟩
      · have : 0 < v / rh := div_pos hv hrh
        linarith
      · simp only [List.sum_cons]
        rw [add_div]
        linarith

lemma layoutRowV_bounds (x cw : ℚ) (hcw : 0 < cw) :
    ∀ (row : List ℚ) (cy : ℚ), (∀ v ∈ row, 0 < v) →
      ∀ q ∈ layoutRowV row x cy cw,
        q.x = x ∧ q.w = cw ∧ cy ≤ q.y ∧ q.y + q.h ≤ cy + row.sum / cw ∧ 0 < q.h := by
  intro row
  induction row with
  | nil => intro cy _ q hq; simp [layoutRowV] at hq
  | cons v rest ih =>
    intro cy hpos q hq
    have hv : 0 < v := hpos v (List.mem_cons_self _ _)
    have hrest : ∀ u ∈ rest, 0 < u :=
      fun u hu => hpos u (List.mem_cons_of_mem _ hu)
    have hrsum : 0 ≤ rest.sum := List.sum_nonneg (fun u hu => le_of_lt (hrest u hu))
    simp only [layoutRowV, List.mem_cons] at hq
    rcases hq with rfl | hq
    · refine ⟨rfl, rfl, le_refl _, ?_, div_pos hv hcw⟩
      simp only [List.sum_cons]
      have : v / cw ≤ (v + rest.sum) / cw :=
        (div_le_div_right hcw).mpr (by linarith)
      linarith
    · obtain ⟨hx, hw, hy, hyh, hh⟩ := ih (cy + v / cw) hrest q hq
      refine ⟨hx, hw, ?_, ?_, hh⟩
      · have : 0 < v / cw := div_pos hv hcw
        linarith
      · simp only [List.sum_cons]
        rw [add_div]
        linarith

lemma layout_row_inside (row : List ℚ) (r : Rect) (horiz : Bool)
    (hs : 0 < row.sum) (hpos : ∀ v ∈ row, 0 < v)
    (hw : 0 < r.w) (hh : 0 < r.h) (hle : row.sum ≤ r.area) :
    ∀ q ∈ layout_row row r horiz, insideOf q r ∧ 0 < q.w ∧ 0 < q.h := by
  have hguard : ¬ (row.sum ≤ 0 ∨ r.w ≤ 0 ∨ r.h ≤ 0) := by
    push_neg
    exact ⟨hs, hw, hh⟩
  rw [Rect.area] at hle
  cases horiz with
  | true =>
    intro q hq
    simp only [layout_row, if_neg hguard, if_true] at hq
    have hrh : 0 < row.sum / r.w := div_pos hs hw
    obtain ⟨hy, hhq, hx, hxw, hwq⟩ :=
      layoutRowH_bounds r.y _ hrh row r.x hpos q hq
    have hcollapse : row.sum / (row.sum / r.w) = r.w := by
      rw [div_div_eq_mul_div, mul_comm, mul_div_assoc, div_self (ne_of_gt hs), mul_one]
    have hrh_le : row.sum / r.w ≤ r.h := by
      rw [div_le_iff₀ hw]
      linarith
    rw [hcollapse] at hxw
    exact ⟨⟨hx, le_of_eq hy.symm, hxw, by rw [hy, hhq]; linarith⟩,
      hwq, by rw [hhq]; exact hrh⟩
  | false =>
    intro q hq
    simp only [layout_row, if_neg hguard, Bool.false_eq_true, if_false] at hq
    have hcw : 0 < row.sum / r.h := div_pos hs hh
    obtain ⟨hx, hwq, hy, hyh, hhq⟩ :=
      layoutRowV_bounds r.x _ hcw row r.y hpos q hq
    have hcollapse : row.sum / (row.sum / r.h) = r.h := by
      rw [div_div_eq_mul_div, mul_comm, mul_div_assoc, div_self (ne_of_gt hs), mul_one]
    have hcw_le : row.sum / r.h ≤ r.w := by
      rw [div_le_iff₀ hh]
      linarith
    rw [hcollapse] at hyh
    exact ⟨⟨le_of_eq hx.symm, hy, by rw [hx, hwq]; linarith, hyh⟩,
      by rw [hwq]; exact hcw, hhq⟩

lemma leftover_inside (r : Rect) (row : List ℚ) (horiz : Bool)
    (hs : 0 < row.sum) (hw : 0 < r.w) (hh : 0 < r.h) :
    insideOf (leftover_rect r row horiz) r := by
  have hguard : ¬ (row.sum ≤ 0 ∨ r.w ≤ 0 ∨ r.h ≤ 0) := by
    push_neg
    exact ⟨hs, hw, hh⟩
  cases horiz with
  | true =>
    simp only [leftover_rect, if_neg hguard, if_true, insideOf]
    have : 0 < row.sum / r.w := div_pos hs hw
    refine ⟨le_refl _, by linarith, le_refl _, by linarith⟩
  | false =>
    simp only [leftover_rect, if_neg hguard, Bool.false_eq_true, if_false, insideOf]
    have : 0 < row.sum / r.h := div_pos hs hh
    refine ⟨by linarith, le_refl _, by linarith, le_refl _⟩

lemma squarifyLoop_inside :
    ∀ (vals row : List ℚ) (r : Rect),
      (∀ v ∈ vals, 0 < v) → (∀ v ∈ row, 0 < v) →
      0 < r.w → 0 < r.h → row.sum + vals.sum = r.area →
      ∀ q ∈ squarifyLoop vals row r, insideOf q r ∧ 0 < q.w ∧ 0 < q.h := by
  intro vals
  induction vals with
  | nil =>
    intro row r _ hrow hw hh hsum q hq
    have harea : 0 < r.area := mul_pos hw hh
    have hrsum : row.sum = r.area := by simpa using hsum
    have hne : row.isEmpty = false := by
      cases row with
      | nil => rw [hrsum.symm] at harea; simp at harea
      | cons a t => rfl
    simp only [squarifyLoop, hne, Bool.false_eq_true, if_false] at hq
    exact layout_row_inside row r _ (hrsum ▸ harea) hrow hw hh
      (le_of_eq hrsum) q hq
  | cons v rest ih =>
    intro row r hvals hrow hw hh hsum q hq
    have hv : 0 < v := hvals v (List.mem_cons_self _ _)
    have hrest : ∀ u ∈ rest, 0 < u :=
      fun u hu => hvals u (List.mem_cons_of_mem _ hu)
    by_cases hcond : (row.isEmpty ||
        infLE (worstAspect (row ++ [v]) (min r.w r.h))
          (worstAspect row (min r.w r.h))) = true
    · simp only [squarifyLoop, hcond, if_true] at hq
      have hsum' : (row ++ [v]).sum + rest.sum = r.area := by
        simp only [List.sum_append, List.sum_cons, List.sum_nil] at hsum ⊢
        linarith
      have happ : ∀ u ∈ row ++ [v], 0 < u := by
        intro u hu
        rcases List.mem_append.mp hu with h | h
        · exact hrow u h
        · rw [List.mem_singleton.mp h]; exact hv
      exact ih (row ++ [v]) r hrest happ hw hh hsum' q hq
    · rw [Bool.not_eq_true] at hcond
      simp only [squarifyLoop, hcond, Bool.false_eq_true, if_false,
        List.mem_append] at hq
      have hrowne : row ≠ [] := by
        intro hnil
        rw [hnil] at hcond
        simp at hcond
      have hs : 0 < row.sum := List.sum_pos row hrow hrowne
      have hvals_pos : 0 < (v :: rest).sum :=
        List.sum_pos _ hvals (List.cons_ne_nil _ _)
      have hlt : row.sum < r.area := by
        rw [← hsum]
        linarith
      rcases hq with hq | hq
      · exact layout_row_inside row r _ hs hrow hw hh (le_of_lt hlt) q hq
      · obtain ⟨hw', hh', harea'⟩ :=
          leftover_dims r row (decide (r.h ≤ r.w)) hs hw hh hlt
        have hsum' : ([v]).sum + rest.sum
            = (leftover_rect r row (decide (r.h ≤ r.w))).area := by
          rw [harea', ← hsum]
          simp only [List.sum_cons, List.sum_nil]
          ring
        have hvpos : ∀ u ∈ [v], 0 < u := by
          intro u hu
          rw [List.mem_singleton.mp hu]
          exact hv
        obtain ⟨hin, hqw, hqh⟩ := ih [v] _ hrest hvpos hw' hh' hsum' q hq
        exact ⟨insideOf_trans hin
          (leftover_inside r row (decide (r.h ≤ r.w)) hs hw hh), hqw, hqh⟩

lemma squarify_pos_eq (values : List ℚ) (rect : Rect)
    (hpos : ∀ v ∈ values, 0 < v) (hne : values ≠ [])
    (hw : 1 < rect.w) (hh : 1 < rect.h) :
    squarify values rect
      = squarifyLoop (values.map (fun v => v * (rect.w * rect.h / values.sum)))
          [] rect := by
  have hdeg : ¬ (rect.w ≤ 1 ∨ rect.h ≤ 1) := by
    push_neg
    exact ⟨hw, hh⟩
  have hfilter : values.filter (fun v => 0 < v) = values :=
    List.filter_eq_self.mpr (fun a ha => by simpa using hpos a ha)
  have hempty : values.isEmpty = false := by
    simpa [List.isEmpty_iff] using hne
  have htot : 0 < values.sum := List.sum_pos values hpos hne
  simp only [squarify, if_neg hdeg, hfilter, hempty, Bool.false_eq_true,
    if_false, if_pos htot]

/-- C2 (amended): for a non-empty sequence of strictly positive weights
and a rectangle with width and height both greater than 1, `squarify`
returns exactly one rectangle per input weight — same count, and in the
same order the i-th rectangle's area is the i-th weight rescaled by
`w·h / sum` — and the areas sum exactly to `w·h` in exact arithmetic. -/
theorem squarify_count_and_area :
    ∀ (values : List ℚ) (rect : Rect),
      (∀ v ∈ values, 0 < v) → values ≠ [] → 1 < rect.w → 1 < rect.h →
      (squarify values rect).length = values.length ∧
      ((squarify values rect).map Rect.area).sum = rect.w * rect.h ∧
      (squarify values rect).map Rect.area
        = values.map (fun v => v * (rect.w * rect.h / values.sum)) := by
  intro values rect hpos hne hw hh
  have hw0 : 0 < rect.w := lt_trans one_pos hw
  have hh0 : 0 < rect.h := lt_trans one_pos hh
  have htot : 0 < values.sum := List.sum_pos values hpos hne
  have hscale : 0 < rect.w * rect.h / values.sum :=
    div_pos (mul_pos hw0 hh0) htot
  set scaled := values.map (fun v => v * (rect.w * rect.h / values.sum))
    with hscaled
  have hspos : ∀ v ∈ scaled, 0 < v := by
    intro v hv
    rw [hscaled] at hv
    obtain ⟨u, hu, rfl⟩ := List.mem_map.mp hv
    exact mul_pos (hpos u hu) hscale
  have hssum : scaled.sum = rect.w * rect.h := by
    rw [hscaled, sum_map_mul, mul_comm, div_mul_cancel₀]
    exact ne_of_gt htot
  have heq := squarify_pos_eq values rect hpos hne hw hh
  have harea := squarifyLoop_map_area scaled [] rect hspos (by simp) hw0 hh0
    (by simpa [Rect.area] using hssum)
  rw [heq]
  have harea' : (squarifyLoop scaled [] rect).map Rect.area = scaled := by
    simpa using harea
  refine ⟨?_, ?_, harea'⟩
  · have hlen := congrArg List.length harea'
    rw [List.length_map] at hlen
    rw [hlen, hscaled, List.length_map]
  · rw [harea', hssum]

/-- Counterexample to C2 as stated: positive width/height is not enough —
`squarify` returns no rectangles at all for a rectangle with
`0 < w ≤ 1` (line 206), and likewise returns an empty layout (total
area 0, not `w·h`) for an empty weight list. -/
theorem squarify_count_and_area_counterexample :
    ((0 : ℚ) < 1/2 ∧ (0 : ℚ) < 2 ∧
      (squarify [1] ⟨0, 0, 1/2, 2⟩).length ≠ [(1 : ℚ)].length) ∧
    ((squarify ([] : List ℚ) ⟨0, 0, 5, 5⟩).map Rect.area).sum ≠ (5 : ℚ) * 5 := by
  refine ⟨⟨by norm_num, by norm_num, ?_⟩, ?_⟩
  · have h : squarify [1] ⟨0, 0, 1/2, 2⟩ = [] := by with_unfolding_all rfl
    rw [h]
    simp
  · have h : squarify ([] : List ℚ) ⟨0, 0, 5, 5⟩ = [] := by with_unfolding_all rfl
    rw [h]
    norm_num

/-- Witness for C2 (amended): two unit weights in a `4 × 2` rectangle. -/
theorem squarify_count_and_area_witness :
    (squarify [1, 1] ⟨0, 0, 4, 2⟩).length = 2 ∧
    ((squarify [1, 1] ⟨0, 0, 4, 2⟩).map Rect.area).sum = (4 : ℚ) * 2 := by
  have h := squarify_count_and_area [1, 1] ⟨0, 0, 4, 2⟩
    (by norm_num) (by simp) (by norm_num) (by norm_num)
  exact ⟨h.1, h.2.1⟩

/-- C6: every rectangle produced by `squarify` lies within the bounds of
the input rectangle, for any input — its origin is inside, and its far
edges do not exceed the input rectangle's far edges — in exact
arithmetic. -/
theorem squarify_within_bounds :
    ∀ (values : List ℚ) (rect : Rect), ∀ q ∈ squarify values rect,
      rect.x ≤ q.x ∧ rect.y ≤ q.y ∧ q.x + q.w ≤ rect.x + rect.w ∧
      q.y + q.h ≤ rect.y + rect.h ∧ q.x ≤ rect.x + rect.w ∧
      q.y ≤ rect.y + rect.h := by
  intro values rect q hq
  by_cases hdeg : rect.w ≤ 1 ∨ rect.h ≤ 1
  · rw [squarify, if_pos hdeg] at hq
    simp at hq
  · push_neg at hdeg
    obtain ⟨hw, hh⟩ := hdeg
    have hdeg' : ¬ (rect.w ≤ 1 ∨ rect.h ≤ 1) := by
      push_neg
      exact ⟨hw, hh⟩
    have hw0 : 0 < rect.w := lt_trans one_pos hw
    have hh0 : 0 < rect.h := lt_trans one_pos hh
    have hvpos : ∀ v ∈ values.filter (fun v => 0 < v), 0 < v := by
      intro v hv
      simpa using List.of_mem_filter hv
    by_cases hemp : (values.filter (fun v => 0 < v)).isEmpty = true
    · simp only [squarify, if_neg hdeg', hemp, if_true] at hq
      simp at hq
    · have hne : values.filter (fun v => 0 < v) ≠ [] := by
        intro h'
        rw [h'] at hemp
        exact hemp rfl
      have htot : 0 < (values.filter (fun v => 0 < v)).sum :=
        List.sum_pos _ hvpos hne
      rw [Bool.not_eq_true] at hemp
      simp only [squarify, if_neg hdeg', hemp, Bool.false_eq_true, if_false,
        if_pos htot] at hq
      have hscale : 0 < rect.w * rect.h / (values.filter (fun v => 0 < v)).sum :=
        div_pos (mul_pos hw0 hh0) htot
      have hspos : ∀ v ∈ (values.filter (fun v => 0 < v)).map
          (fun v => v * (rect.w * rect.h / (values.filter (fun v => 0 < v)).sum)),
          0 < v := by
        intro v hv
        obtain ⟨u, hu, rfl⟩ := List.mem_map.mp hv
        exact mul_pos (hvpos u hu) hscale
      have hssum : ((values.filter (fun v => 0 < v)).map
          (fun v => v * (rect.w * rect.h / (values.filter (fun v => 0 < v)).sum))).sum
          = rect.w * rect.h := by
        rw [sum_map_mul, mul_comm, div_mul_cancel₀]
        exact ne_of_gt htot
      obtain ⟨⟨h1, h2, h3, h4⟩, hqw, hqh⟩ :=
        squarifyLoop_inside _ [] rect hspos (by simp) hw0 hh0
          (by simpa [Rect.area] using hssum) q hq
      exact ⟨h1, h2, h3, h4, by linarith, by linarith⟩

/-- Witness for C6: the single produced rectangle of a one-item layout
is the full input rectangle. -/
theorem squarify_within_bounds_witness :
    (0 : ℚ) ≤ 0 ∧ (0 : ℚ) ≤ 0 ∧ (0 : ℚ) + 2 ≤ 0 + 2 ∧ (0 : ℚ) + 3 ≤ 0 + 3 ∧
    (0 : ℚ) ≤ 0 + 2 ∧ (0 : ℚ) ≤ 0 + 3 :=
  squarify_within_bounds [2] ⟨0, 0, 2, 3⟩ ⟨0, 0, 2, 3⟩
    (by rw [show squarify [2] ⟨0, 0, 2, 3⟩ = [⟨0, 0, 2, 3⟩]
          from by with_unfolding_all rfl]
        exact List.mem_singleton.mpr rfl)

mutual

theorem scanAux_checks (flag : Flag) (excl : Excl) (path : List Char)
    (isRoot : Bool) (fs : FS) (k : ℕ) (res : Option Node) (k' : ℕ)
    (h : scanAux flag excl path isRoot fs k = .ok (res, k')) :
    k < k' ∧ ∀ j, k ≤ j → j < k' → flag j = false := by
  unfold scanAux at h
  by_cases hf : flag k
  · rw [if_pos hf] at h
    cases h
  · rw [if_neg hf] at h
    have single : ∀ j, k ≤ j → j < k + 1 → flag j = false := by
      intro j hj1 hj2
      have : j = k := by omega
      subst this
      simpa using hf
    cases fs with
    | mk nm d so lk sz en cs =>
      dsimp only at h
      by_cases hex : (!isRoot && excludeTest excl path d (nameOf path)) = true
      · rw [if_pos hex] at h
        simp only [Except.ok.injEq, Prod.mk.injEq] at h
        obtain ⟨-, rfl⟩ := h
        exact ⟨by omega, single⟩
      · rw [if_neg hex] at h
        by_cases hso : (!so) = true
        · rw [if_pos hso] at h
          simp only [Except.ok.injEq, Prod.mk.injEq] at h
          obtain ⟨-, rfl⟩ := h
          exact ⟨by omega, single⟩
        · rw [if_neg hso] at h
          by_cases hlk : lk = true
          · rw [if_pos hlk] at h
            simp only [Except.ok.injEq, Prod.mk.injEq] at h
            obtain ⟨-, rfl⟩ := h
            exact ⟨by omega, single⟩
          · rw [if_neg hlk] at h
            by_cases hd : d = true
            · rw [if_pos hd] at h
              cases en with
              | permErr =>
                simp only [Except.ok.injEq, Prod.mk.injEq] at h
                obtain ⟨-, rfl⟩ := h
                exact ⟨by omega, single⟩
              | otherErr =>
                simp only [Except.ok.injEq, Prod.mk.injEq] at h
                obtain ⟨-, rfl⟩ := h
                exact ⟨by omega, single⟩
              | ok =>
                cases heq : scanKids flag excl path cs (k + 1) with
                | error e => simp only [heq] at h; cases h
                | ok p =>
                  obtain ⟨kids, total, k''⟩ := p
                  simp only [heq, Except.ok.injEq, Prod.mk.injEq] at h
                  obtain ⟨-, rfl⟩ := h
                  obtain ⟨hle, hrange⟩ :=
                    scanKids_checks flag excl path cs (k + 1) kids total k'' heq
                  refine ⟨by omega, ?_⟩
                  intro j hj1 hj2
                  rcases Nat.eq_or_lt_of_le hj1 with rfl | hlt
                  · simpa using hf
                  · exact hrange j (by omega) hj2
            · rw [if_neg hd] at h
              simp only [Except.ok.injEq, Prod.mk.injEq] at h
              obtain ⟨-, rfl⟩ := h
              exact ⟨by omega, single⟩

theorem scanKids_checks (flag : Flag) (excl : Excl) (path : List Char)
    (cs : List FS) (k : ℕ) (kids : List Node) (total : ℤ) (k' : ℕ)
    (h : scanKids flag excl path cs k = .ok (kids, total, k')) :
    k ≤ k' ∧ ∀ j, k ≤ j → j < k' → flag j = false := by
  match cs with
  | [] =>
    unfold scanKids at h
    simp only [Except.ok.injEq, Prod.mk.injEq] at h
    obtain ⟨-, -, rfl⟩ := h
    exact ⟨le_refl _, fun j hj1 hj2 => absurd hj1 (by omega)⟩
  | c :: rest =>
    unfold scanKids at h
    by_cases hf : flag k
    · rw [if_pos hf] at h
      cases h
    · rw [if_neg hf] at h
      cases heq : scanAux flag excl (path ++ '/' :: c.fsname) false c (k + 1) with
      | error e => simp only [heq] at h; cases h
      | ok p =>
        obtain ⟨child?, k1⟩ := p
        simp only [heq] at h
        cases heq2 : scanKids flag excl path rest k1 with
        | error e => simp only [heq2] at h; cases h
        | ok p2 =>
          obtain ⟨kidsR, totalR, k2⟩ := p2
          simp only [heq2] at h
          obtain ⟨ha1, ha2⟩ :=
            scanAux_checks flag excl (path ++ '/' :: c.fsname) false c (k + 1)
              child? k1 heq
          obtain ⟨hb1, hb2⟩ :=
            scanKids_checks flag excl path rest k1 kidsR totalR k2 heq2
          have hk2 : k' = k2 := by
            cases child? with
            | none =>
              simp only [Except.ok.injEq, Prod.mk.injEq] at h
              exact h.2.2.symm
            | some child =>
              simp only [Except.ok.injEq, Prod.mk.injEq] at h
              exact h.2.2.symm
          subst hk2
          refine ⟨by omega, ?_⟩
          intro j hj1 hj2
          rcases Nat.eq_or_lt_of_le hj1 with rfl | hlt
          · simpa using hf
          · by_cases hj3 : j < k1
            · exact ha2 j (by omega) hj3
            · exact hb2 j (by omega) hj2

end

/-- C1: whenever a cancellation check reads true — at the top of a
recursive `_scan` call or before processing a directory entry — the
whole scan aborts with the `ScanCancelled` outcome; the abort
propagates through all recursion levels, and a (partial) `Node` tree is
never returned.  Stated as: (a) a returned tree implies every
cancellation check performed during the walk (checks `k` through
`k' - 1`) read false, so a flag observed true at any reached check
point excludes a tree result; (b) the only error outcome is
cancellation; (c) a flag set at the very first check aborts the whole
scan immediately. -/
theorem scan_cancellation :
    ∀ (flag : Flag) (excl : Excl) (path : List Char) (fs : FS),
      (∀ isRoot k res k', scanAux flag excl path isRoot fs k = .ok (res, k') →
        k < k' ∧ ∀ j, k ≤ j → j < k' → flag j = false) ∧
      (∀ e, scan_directory flag excl path fs = .error e → e = .cancelled) ∧
      (flag 0 = true → scan_directory flag excl path fs = .error .cancelled) := by
  intro flag excl path fs
  refine ⟨?_, ?_, ?_⟩
  · intro isRoot k res k' h
    exact scanAux_checks flag excl path isRoot fs k res k' h
  · intro e _
    cases e
    rfl
  · intro hf
    have : scanAux flag excl path true fs 0 = .error .cancelled := by
      unfold scanAux
      rw [if_pos hf]
    rw [scan_directory, this]

/-- Witness for C1: with the flag already set, any scan is cancelled. -/
theorem scan_cancellation_witness :
    scan_directory (fun _ => true) none "/r".data
        (FS.mk "r".data false true false 7 .ok []) = .error .cancelled :=
  (scan_cancellation (fun _ => true) none "/r".data
    (FS.mk "r".data false true false 7 .ok [])).2.2 rfl

/-- Counterexample to C3 as stated: a root whose `lstat` fails does NOT
yield the `Failed` terminal outcome — `_scan` returns a zero-size node
tagged `" [stat error]"` (line 111), `scan_directory` returns it as a
completed tree, and `_scan_worker` applies it ("Done"). -/
theorem scan_missing_root_counterexample :
    scanOutcome (scan_directory (fun _ => false) none "/gone".data
        (FS.mk "gone".data false false false 0 .ok []))
      = Outcome.completed
          (Node.mk "/gone".data "gone [stat error]".data 0 false []) ∧
    scanOutcome (scan_directory (fun _ => false) none "/gone".data
        (FS.mk "gone".data false false false 0 .ok []))
      ≠ Outcome.failed := by
  constructor
  · with_unfolding_all rfl
  · intro h
    rw [show scanOutcome (scan_directory (fun _ => false) none "/gone".data
        (FS.mk "gone".data false false false 0 .ok []))
      = Outcome.completed
          (Node.mk "/gone".data "gone [stat error]".data 0 false [])
      from by with_unfolding_all rfl] at h
    cases h

/-- C3 (amended): a scan whose root cannot be stat'd completes (with no
cancellation observed at the first check) and produces a tree whose
root is a zero-size non-directory node tagged `" [stat error]"` with no
children; the `Failed` outcome is not produced. -/
theorem scan_missing_root_completes :
    ∀ (flag : Flag) (excl : Excl) (path : List Char) (fs : FS),
      fs.statOk = false → flag 0 = false →
      scanOutcome (scan_directory flag excl path fs)
        = .completed (.mk path (nameOf path ++ statErrorTag) 0 false []) := by
  intro flag excl path fs hstat hflag
  cases fs with
  | mk nm d so lk sz en cs =>
    simp only [FS.statOk] at hstat
    subst hstat
    have haux : scanAux flag excl path true (FS.mk nm d false lk sz en cs) 0
        = .ok (some (.mk path (nameOf path ++ statErrorTag) 0 false []), 1) := by
      unfold scanAux
      rw [if_neg (by simp [hflag])]
      dsimp only
      rw [if_neg (by simp)]
      rfl
    rw [scan_directory, haux, scanOutcome]

/-- Witness for C3 (amended): concrete missing root. -/
theorem scan_missing_root_completes_witness :
    scanOutcome (scan_directory (fun _ => false) none "/gone".data
        (FS.mk "gone".data false false false 0 .ok []))
      = .completed (.mk "/gone".data (nameOf "/gone".data ++ statErrorTag)
          0 false []) :=
  scan_missing_root_completes (fun _ => false) none "/gone".data
    (FS.mk "gone".data false false false 0 .ok []) rfl rfl

mutual

theorem scanAux_wellSized (flag : Flag) (excl : Excl) (path : List Char)
    (isRoot : Bool) (fs : FS) (k : ℕ) (n : Node) (k' : ℕ)
    (h : scanAux flag excl path isRoot fs k = .ok (some n, k')) :
    Node.wellSized n = true ∧ 0 ≤ n.size := by
  unfold scanAux at h
  by_cases hf : flag k
  · rw [if_pos hf] at h
    cases h
  · rw [if_neg hf] at h
    cases fs with
    | mk nm d so lk sz en cs =>
      dsimp only at h
      by_cases hex : (!isRoot && excludeTest excl path d (nameOf path)) = true
      · rw [if_pos hex] at h
        simp only [Except.ok.injEq, Prod.mk.injEq] at h
        cases h.1
      · rw [if_neg hex] at h
        by_cases hso : (!so) = true
        · rw [if_pos hso] at h
          simp only [Except.ok.injEq, Prod.mk.injEq, Option.some.injEq] at h
          obtain ⟨rfl, -⟩ := h
          exact ⟨rfl, le_refl 0⟩
        · rw [if_neg hso] at h
          by_cases hlk : lk = true
          · rw [if_pos hlk] at h
            simp only [Except.ok.injEq, Prod.mk.injEq, Option.some.injEq] at h
            obtain ⟨rfl, -⟩ := h
            exact ⟨rfl, le_refl 0⟩
          · rw [if_neg hlk] at h
            by_cases hd : d = true
            · rw [if_pos hd] at h
              cases en with
              | permErr =>
                simp only [Except.ok.injEq, Prod.mk.injEq, Option.some.injEq] at h
                obtain ⟨rfl, -⟩ := h
                exact ⟨rfl, le_refl 0⟩
              | otherErr =>
                simp only [Except.ok.injEq, Prod.mk.injEq, Option.some.injEq] at h
                obtain ⟨rfl, -⟩ := h
                exact ⟨rfl, le_refl 0⟩
              | ok =>
                cases heq : scanKids flag excl path cs (k + 1) with
                | error e => simp only [heq] at h; cases h
                | ok p =>
                  obtain ⟨kids, total, k''⟩ := p
                  simp only [heq, Except.ok.injEq, Prod.mk.injEq,
                    Option.some.injEq] at h
                  obtain ⟨rfl, -⟩ := h
                  obtain ⟨hall, hsize, htot⟩ :=
                    scanKids_wellSized flag excl path cs (k + 1) kids total k'' heq
                  constructor
                  · simp only [Node.wellSized, Bool.and_eq_true, Bool.or_eq_true,
                      beq_iff_eq]
                    exact ⟨Or.inr htot, hall⟩
                  · show (0 : ℤ) ≤ total
                    rw [htot]
                    refine List.sum_nonneg ?_
                    intro x hx
                    obtain ⟨c, hc, rfl⟩ := List.mem_map.mp hx
                    exact hsize c hc
            · rw [if_neg hd] at h
              simp only [Except.ok.injEq, Prod.mk.injEq, Option.some.injEq] at h
              obtain ⟨rfl, -⟩ := h
              exact ⟨rfl, Int.natCast_nonneg sz⟩

theorem scanKids_wellSized (flag : Flag) (excl : Excl) (path : List Char)
    (cs : List FS) (k : ℕ) (kids : List Node) (total : ℤ) (k' : ℕ)
    (h : scanKids flag excl path cs k = .ok (kids, total, k')) :
    Node.allWellSized kids = true ∧ (∀ c ∈ kids, 0 ≤ c.size) ∧
      total = (kids.map Node.size).sum := by
  match cs with
  | [] =>
    unfold scanKids at h
    simp only [Except.ok.injEq, Prod.mk.injEq] at h
    obtain ⟨rfl, rfl, -⟩ := h
    exact ⟨rfl, fun c hc => absurd hc (List.not_mem_nil c), by simp⟩
  | c :: rest =>
    unfold scanKids at h
    by_cases hf : flag k
    · rw [if_pos hf] at h
      cases h
    · rw [if_neg hf] at h
      cases heq : scanAux flag excl (path ++ '/' :: c.fsname) false c (k + 1) with
      | error e => simp only [heq] at h; cases h
      | ok p =>
        obtain ⟨child?, k1⟩ := p
        simp only [heq] at h
        cases heq2 : scanKids flag excl path rest k1 with
        | error e => simp only [heq2] at h; cases h
        | ok p2 =>
          obtain ⟨kidsR, totalR, k2⟩ := p2
          simp only [heq2] at h
          obtain ⟨hallR, hszR, htotR⟩ :=
            scanKids_wellSized flag excl path rest k1 kidsR totalR k2 heq2
          cases child? with
          | none =>
            simp only [Except.ok.injEq, Prod.mk.injEq] at h
            obtain ⟨rfl, rfl, -⟩ := h
            exact ⟨hallR, hszR, htotR⟩
          | some child =>
            simp only [Except.ok.injEq, Prod.mk.injEq] at h
            obtain ⟨rfl, rfl, -⟩ := h
            obtain ⟨hws, hsz⟩ :=
              scanAux_wellSized flag excl (path ++ '/' :: c.fsname) false c
                (k + 1) child k1 heq
            have hmax : max child.size 0 = child.size := max_eq_left hsz
            refine ⟨?_, ?_, ?_⟩
            · simp only [Node.allWellSized, Bool.and_eq_true]
              exact ⟨hws, hallR⟩
            · intro u hu
              rcases List.mem_cons.mp hu with rfl | hu'
              · exact hsz
              · exact hszR u hu'
            · simp only [List.map_cons, List.sum_cons, hmax, htotR]

end

/-- C5: every `Node` tree returned by `scan_directory` — under any
exclusion predicate, any filesystem contents and no cancellation —
satisfies the size invariant: every directory node's size equals the
sum of its children's sizes; and in particular an entry seen as a
directory whose enumeration did not succeed yields a node of size 0
with no children. -/
theorem scan_sizes_invariant :
    ∀ (flag : Flag) (excl : Excl) (path : List Char) (fs : FS),
      (∀ t, scan_directory flag excl path fs = .ok t →
        Node.wellSized t = true) ∧
      (∀ isRoot k n k', fs.isDir = true → fs.enum ≠ .ok →
        scanAux flag excl path isRoot fs k = .ok (some n, k') →
        n.size = 0 ∧ n.children = []) := by
  intro flag excl path fs
  constructor
  · intro t h
    rw [scan_directory] at h
    cases heq : scanAux flag excl path true fs 0 with
    | error e => rw [heq] at h; cases h
    | ok p =>
      obtain ⟨opt, k'⟩ := p
      rw [heq] at h
      cases opt with
      | none =>
        simp only [Except.ok.injEq] at h
        subst h
        rfl
      | some n =>
        simp only [Except.ok.injEq] at h
        subst h
        exact (scanAux_wellSized flag excl path true fs 0 n k' heq).1
  · intro isRoot k n k' hdir henum h
    unfold scanAux at h
    by_cases hf : flag k
    · rw [if_pos hf] at h
      cases h
    · rw [if_neg hf] at h
      cases fs with
      | mk nm d so lk sz en cs =>
        simp only [FS.isDir] at hdir
        simp only [FS.enum] at henum
        subst hdir
        dsimp only at h
        by_cases hex : (!isRoot && excludeTest excl path true (nameOf path)) = true
        · rw [if_pos hex] at h
          simp only [Except.ok.injEq, Prod.mk.injEq] at h
          cases h.1
        · rw [if_neg hex] at h
          by_cases hso : (!so) = true
          · rw [if_pos hso] at h
            simp only [Except.ok.injEq, Prod.mk.injEq, Option.some.injEq] at h
            obtain ⟨rfl, -⟩ := h
            exact ⟨rfl, rfl⟩
          · rw [if_neg hso] at h
            by_cases hlk : lk = true
            · rw [if_pos hlk] at h
              simp only [Except.ok.injEq, Prod.mk.injEq, Option.some.injEq] at h
              obtain ⟨rfl, -⟩ := h
              exact ⟨rfl, rfl⟩
            · rw [if_neg hlk] at h
              rw [if_pos rfl] at h
              cases en with
              | permErr =>
                simp only [Except.ok.injEq, Prod.mk.injEq, Option.some.injEq] at h
                obtain ⟨rfl, -⟩ := h
                exact ⟨rfl, rfl⟩
              | otherErr =>
                simp only [Except.ok.injEq, Prod.mk.injEq, Option.some.injEq] at h
                obtain ⟨rfl, -⟩ := h
                exact ⟨rfl, rfl⟩
              | ok => exact absurd rfl henum

/-- A small concrete filesystem: a root directory holding a 100-byte
file `f` and a subdirectory `d` with a 50-byte file `g`. -/
def fsDemo : FS :=
  .mk "r".data true true false 0 .ok
    [.mk "f".data false true false 100 .ok [],
     .mk "d".data true true false 0 .ok
       [.mk "g".data false true false 50 .ok []]]

/-- Witness for C5: scanning `fsDemo` yields a tree (root size
100 + 50 = 150) satisfying the size invariant. -/
theorem scan_sizes_invariant_witness :
    Node.wellSized (Node.mk "/r".data "r".data 150 true
      [Node.mk "/r/f".data "f".data 100 false [],
       Node.mk "/r/d".data "d".data 50 true
         [Node.mk "/r/d/g".data "g".data 50 false []]]) = true :=
  (scan_sizes_invariant (fun _ => false) none "/r".data fsDemo).1 _
    (by with_unfolding_all rfl)

end Treemap
